import Mathlib

/-!
Shallow embedding of the stock-analytics dashboard (`app.py`) and proofs
about its statistics engine, pipeline control flow, CSV export and
moving-average column naming.

Numeric cells are modelled as `FVal`: a finite rational, `inf`, `neginf`
or `nan`, mirroring the IEEE-754 behaviour of the float operations the
program actually performs (division of finite operands, which is the only
place non-finite values can arise from finite provider data).
-/

namespace StockDash

/-- Floating-point value as produced by the program's arithmetic on finite
provider data: a finite rational, a signed infinity, or NaN. -/
inductive FVal where
  | fin (q : ℚ)
  | inf
  | neginf
  | nan
deriving DecidableEq, Repr

/-- Whether a value is finite. -/
def FVal.isFin : FVal → Bool
  | .fin _ => true
  | _ => false

/-- Whether a value is NaN (`np.isnan` / what `dropna` removes). -/
def FVal.isNan : FVal → Bool
  | .nan => true
  | _ => false

/-- The rational carried by a finite value (junk 0 otherwise; only applied
to finite values). -/
def FVal.toQ : FVal → ℚ
  | .fin q => q
  | _ => 0

/-- IEEE division of two finite floats: `a / b` is finite for `b ≠ 0`,
a signed infinity for `b = 0, a ≠ 0`, and NaN for `0 / 0`. -/
def fdivF (a b : ℚ) : FVal :=
  if b = 0 then (if 0 < a then .inf else if a < 0 then .neginf else .nan)
  else .fin (a / b)

/-- Multiplication of a float by the literal 100, as in
`(last_close - prev_close) / prev_close * 100` (app.py line 71). -/
def FVal.times100 : FVal → FVal
  | .fin q => .fin (q * 100)
  | .inf => .inf
  | .neginf => .neginf
  | .nan => .nan

/-- One step of `Series.pct_change`: the value at position `i` computed
from `prev = p[i-1]` and `cur = p[i]`, namely `cur / prev - 1`, i.e.
`(cur - prev) / prev` (the sign of the infinity at `prev = 0` is the sign
of `cur - prev = cur`, matching `cur / 0 - 1`). -/
def pctChangeStep (prev cur : ℚ) : FVal :=
  fdivF (cur - prev) prev

/-- Model of `data["Adj Close"].pct_change()` (app.py line 66): NaN at position 0,
then the step value at each later position. Empty on an empty series. -/
def pctChange (ps : List ℚ) : List FVal :=
  match ps with
  | [] => []
  | _ :: _ => .nan :: List.zipWith pctChangeStep ps ps.tail

/-- Model of `Series.dropna`: removes exactly the NaN entries (infinities stay). -/
def dropna (vs : List FVal) : List FVal :=
  vs.filter (fun v => !v.isNan)

/-- Model of `returns = data["Return"].dropna()` (app.py line 67). -/
def returnsOf (ps : List ℚ) : List FVal :=
  dropna (pctChange ps)

/-- Model of `last_close = data["Adj Close"].iloc[-1]` (app.py line 69); junk 0 on
an empty series, which the fetch guard makes unreachable. -/
def lastClose (ps : List ℚ) : ℚ :=
  ((ps.get? (ps.length - 1)).getD 0)

/-- Model of `prev_close = data["Adj Close"].iloc[-2] if len(data) > 1 else np.nan`
(app.py line 70); `none` models `np.nan`. -/
def prevClose (ps : List ℚ) : Option ℚ :=
  if 1 < ps.length then ps.get? (ps.length - 2) else none

/-- Model of `daily_change_pct = (last_close - prev_close) / prev_close * 100 if not
np.isnan(prev_close) else 0.0` (app.py line 71). -/
def dailyChangePct (ps : List ℚ) : FVal :=
  match prevClose ps with
  | none => .fin 0
  | some p => (fdivF (lastClose ps - p) p).times100

/-- Whether `returns.std()` (pandas sample standard deviation, `ddof = 1`,
`skipna = True`) is NaN on a NaN-free list: fewer than two observations
leave zero degrees of freedom, and any non-finite observation poisons the
result. -/
def stdIsNaN (rs : List FVal) : Bool :=
  decide (rs.length < 2) || rs.any (fun v => !v.isFin)

/-- Whether the Annualized Volatility KPI displays "N/A" (app.py lines
72 and 84): `annualized_vol = returns.std() * np.sqrt(252) if not
returns.empty else np.nan`, displayed as "N/A" exactly when NaN. -/
def annualizedVolIsNA (ps : List ℚ) : Bool :=
  let rs := returnsOf ps
  if rs.isEmpty then true else stdIsNaN rs

/-- Sample variance with `ddof = 1` (the square of `returns.std()`). -/
def sampleVar (rs : List ℚ) : ℚ :=
  ((rs.map (fun x => (x - rs.sum / rs.length) ^ 2)).sum) / ((rs.length : ℚ) - 1)

/-- The square of the annualized volatility (app.py line 72):
`(returns.std() * np.sqrt(252))^2 = var(returns) * 252`; `none` models the
NaN / "N/A" case. Squaring avoids the irrational `sqrt 252` while keeping
the scaling observable. -/
def annualizedVolSq (ps : List ℚ) : Option ℚ :=
  let rs := returnsOf ps
  if rs.isEmpty then none
  else if stdIsNaN rs then none
  else some (sampleVar (rs.map FVal.toQ) * 252)

/-! Supporting lemmas about `pctChange` on nonzero price series. -/

lemma zipWith_step_eq_fin (ps : List ℚ) (h : ∀ x ∈ ps, x ≠ 0) :
    List.zipWith pctChangeStep ps ps.tail
      = List.zipWith (fun a b => FVal.fin ((b - a) / a)) ps ps.tail := by
  induction ps with
  | nil => rfl
  | cons a t ih =>
    cases t with
    | nil => rfl
    | cons b t' =>
      have ha : a ≠ 0 := h a (List.mem_cons_self a _)
      have h' : ∀ x ∈ b :: t', x ≠ 0 := fun x hx => h x (List.mem_cons_of_mem a hx)
      have ih' := ih h'
      simp only [List.tail_cons] at ih' ⊢
      simp only [List.zipWith]
      rw [ih']
      simp [pctChangeStep, fdivF, ha]

lemma zipWith_fin_isFin (g : ℚ → ℚ → ℚ) :
    ∀ (l1 l2 : List ℚ), ∀ v ∈ List.zipWith (fun a b => FVal.fin (g a b)) l1 l2,
      v.isFin = true := by
  intro l1
  induction l1 with
  | nil => intro l2 v hv; simp [List.zipWith] at hv
  | cons a t ih =>
    intro l2 v hv
    cases l2 with
    | nil => simp [List.zipWith] at hv
    | cons b t2 =>
      simp only [List.zipWith, List.mem_cons] at hv
      rcases hv with h | h
      · subst h; rfl
      · exact ih t2 v h

lemma dropna_zipWith_fin (g : ℚ → ℚ → ℚ) (l1 l2 : List ℚ) :
    dropna (List.zipWith (fun a b => FVal.fin (g a b)) l1 l2)
      = List.zipWith (fun a b => FVal.fin (g a b)) l1 l2 := by
  apply List.filter_eq_self.mpr
  intro v hv
  have := zipWith_fin_isFin g l1 l2 v hv
  cases v <;> simp_all [FVal.isFin, FVal.isNan]

lemma returnsOf_eq (ps : List ℚ) (h : ∀ x ∈ ps, x ≠ 0) :
    returnsOf ps = List.zipWith (fun a b => FVal.fin ((b - a) / a)) ps ps.tail := by
  cases ps with
  | nil => rfl
  | cons a t =>
    unfold returnsOf pctChange
    rw [zipWith_step_eq_fin (a :: t) h]
    simp only [dropna, List.filter, FVal.isNan]
    exact dropna_zipWith_fin _ (a :: t) (a :: t).tail

lemma zipWith_tail_get? (g : ℚ → ℚ → FVal) :
    ∀ (ps : List ℚ) (i : ℕ), i + 1 < ps.length →
      (List.zipWith g ps ps.tail).get? i = some (g (ps.getD i 0) (ps.getD (i + 1) 0)) := by
  intro ps
  induction ps with
  | nil => intro i hi; simp at hi
  | cons a t ih =>
    intro i hi
    cases t with
    | nil => simp at hi
    | cons b t' =>
      cases i with
      | zero => rfl
      | succ n =>
        have hn : n + 1 < (b :: t').length := by
          simpa [List.length_cons] using Nat.lt_of_succ_lt_succ hi
        have := ih n hn
        simpa [List.zipWith, List.getD] using this

lemma returnsOf_length (ps : List ℚ) (h : ∀ x ∈ ps, x ≠ 0) :
    (returnsOf ps).length = ps.length - 1 := by
  rw [returnsOf_eq ps h, List.length_zipWith, List.length_tail]
  omega

/-- Claim C1 counterexample: on the 2-bar series `[0, 0]` the claim's
"exactly N−1 values" fails — `pct_change` produces NaN at the 0/0 step,
`dropna` removes it, and the return series is empty rather than of
length 1. -/
theorem c1_counterexample : ¬ ((returnsOf [(0 : ℚ), 0]).length = 2 - 1) := by
  simp [returnsOf, pctChange, pctChangeStep, fdivF, dropna, FVal.isNan]

/-- Claim C1 (amended): for a price series with N ≥ 2 bars whose price
field is nonzero at every position, the return series has exactly N−1
values and the i-th return equals `(price[i+1] − price[i]) / price[i]`. -/
theorem c1_returns_shape (ps : List ℚ) (h2 : 2 ≤ ps.length)
    (hz : ∀ x ∈ ps, x ≠ 0) :
    (returnsOf ps).length = ps.length - 1 ∧
    ∀ i, i + 1 < ps.length →
      (returnsOf ps).get? i
        = some (.fin ((ps.getD (i + 1) 0 - ps.getD i 0) / ps.getD i 0)) := by
  refine ⟨returnsOf_length ps hz, fun i hi => ?_⟩
  rw [returnsOf_eq ps hz]
  exact zipWith_tail_get? _ ps i hi

/-- Claim C1 witness: the spec's scenario series `[100, 102, 101]`. -/
theorem c1_witness :
    (returnsOf [(100 : ℚ), 102, 101]).length = 3 - 1 ∧
    (returnsOf [(100 : ℚ), 102, 101]).get? 0
      = some (.fin ((102 - 100) / 100)) := by
  have h := c1_returns_shape [(100 : ℚ), 102, 101] (by decide) (by decide)
  refine ⟨by simpa using h.1, ?_⟩
  have h0 := h.2 0 (by decide)
  simpa using h0

/-- Claim C3 counterexample: on the 2-bar series `[100, 102]` the return
series holds a single value, `returns.std()` (sample deviation, ddof = 1)
is NaN, and the Annualized Volatility KPI displays "N/A" — refuting
"undefined exactly when the series has fewer than 2 bars". -/
theorem c3_counterexample :
    ¬ (annualizedVolIsNA [(100 : ℚ), 102] = true ↔ [(100 : ℚ), 102].length < 2) := by
  have hval : annualizedVolIsNA [(100 : ℚ), 102] = true := by
    simp [annualizedVolIsNA, returnsOf, pctChange, pctChangeStep, fdivF, dropna,
      FVal.isNan, stdIsNaN]
  simp [hval]

/-- Claim C3 (amended): for a series with nonzero prices, the Annualized
Volatility KPI is "N/A" exactly when the series has fewer than 3 bars
(the return series then has fewer than 2 entries and the sample standard
deviation is NaN); symmetrically the squared volatility
`var(returns) × 252` is defined exactly for 3 or more bars. -/
theorem c3_vol_na_iff (ps : List ℚ) (hz : ∀ x ∈ ps, x ≠ 0) :
    (annualizedVolIsNA ps = true ↔ ps.length < 3) ∧
    ((annualizedVolSq ps).isSome = true ↔ 3 ≤ ps.length) := by
  have hlen := returnsOf_length ps hz
  have hfin : ∀ v ∈ returnsOf ps, v.isFin = true := by
    rw [returnsOf_eq ps hz]; exact zipWith_fin_isFin _ ps ps.tail
  have hany : (returnsOf ps).any (fun v => !v.isFin) = false := by
    rw [List.any_eq_false]
    intro v hv
    simp [hfin v hv]
  constructor
  · have hNA : annualizedVolIsNA ps = decide ((returnsOf ps).length < 2) := by
      unfold annualizedVolIsNA
      by_cases he : (returnsOf ps).isEmpty = true
      · rw [if_pos he]
        have h0 : (returnsOf ps).length = 0 := by
          cases hnil : returnsOf ps with
          | nil => rfl
          | cons a t => rw [hnil] at he; simp [List.isEmpty] at he
        simp [h0]
      · rw [if_neg he]
        simp [stdIsNaN, hany]
    rw [hNA, decide_eq_true_eq, hlen]
    omega
  · unfold annualizedVolSq
    by_cases he : (returnsOf ps).isEmpty = true
    · rw [if_pos he]
      have h0 : (returnsOf ps).length = 0 := by
        cases hnil : returnsOf ps with
        | nil => rfl
        | cons a t => rw [hnil] at he; simp [List.isEmpty] at he
      simp
      omega
    · rw [if_neg he]
      have h1 : 1 ≤ (returnsOf ps).length := by
        cases hnil : returnsOf ps with
        | nil => rw [hnil] at he; simp [List.isEmpty] at he
        | cons a t => simp [hnil]
      have hstd : stdIsNaN (returnsOf ps) = decide ((returnsOf ps).length < 2) := by
        simp [stdIsNaN, hany]
      rw [hstd]
      by_cases hlt : (returnsOf ps).length < 2
      · simp [hlt]
        omega
      · simp [hlt]
        omega

/-- Claim C3 witness: the spec's scenario series `[100, 102, 101]` has
3 bars, so the volatility is defined. -/
theorem c3_witness :
    (annualizedVolIsNA [(100 : ℚ), 102, 101] = true
      ↔ [(100 : ℚ), 102, 101].length < 3) ∧
    ((annualizedVolSq [(100 : ℚ), 102, 101]).isSome = true
      ↔ 3 ≤ [(100 : ℚ), 102, 101].length) :=
  c3_vol_na_iff [(100 : ℚ), 102, 101] (by decide)

/-- Claim C6: `computeSummary` on a single-bar series yields a daily
change of 0 (the code's convention for a NaN previous close) and an "N/A"
annualized volatility; both computations are total, no error is raised. -/
theorem c6_single_bar (p : ℚ) :
    dailyChangePct [p] = .fin 0 ∧ annualizedVolIsNA [p] = true :=
  ⟨rfl, rfl⟩

/-- Claim C10: with every price nonzero, every value of the return series
and the daily change percentage are finite; and the precondition is
necessary — on the series `[0, 1]`, which contains a zero price, both the
return and the daily change are the non-finite value `inf` (no error, no
sentinel). -/
theorem c10_zero_guard :
    (∀ ps : List ℚ, (∀ x ∈ ps, x ≠ 0) →
       (∀ v ∈ returnsOf ps, v.isFin = true) ∧ (dailyChangePct ps).isFin = true) ∧
    returnsOf [(0 : ℚ), 1] = [.inf] ∧ dailyChangePct [(0 : ℚ), 1] = .inf := by
  refine ⟨fun ps hz => ⟨?_, ?_⟩, ?_, ?_⟩
  · rw [returnsOf_eq ps hz]
    exact zipWith_fin_isFin _ ps ps.tail
  · unfold dailyChangePct
    cases hp : prevClose ps with
    | none => rfl
    | some p =>
      have hmem : p ∈ ps := by
        unfold prevClose at hp
        by_cases h1 : 1 < ps.length
        · rw [if_pos h1] at hp
          exact List.get?_mem hp
        · rw [if_neg h1] at hp; exact absurd hp (by simp)
      have hp0 : p ≠ 0 := hz p hmem
      simp [fdivF, hp0, FVal.times100, FVal.isFin]
  · simp [returnsOf, pctChange, pctChangeStep, fdivF, dropna, FVal.isNan]
  · simp [dailyChangePct, prevClose, lastClose, fdivF, FVal.times100]

/-- Claim C10 witness: the nonzero-price series `[1, 2]`. -/
theorem c10_witness : (dailyChangePct [(1 : ℚ), 2]).isFin = true :=
  (c10_zero_guard.1 [(1 : ℚ), 2] (by decide)).2

/-! Moving averages: `data[price_column].rolling(ma).mean()` (app.py
lines 107-108), with pandas' default `min_periods = window`. -/

/-- A dataframe column of float values. -/
abbrev Column := List FVal

/-- A raw numeric column as delivered by the provider. -/
def toColumn (qs : List ℚ) : Column := qs.map .fin

/-- Mean of one rolling window: NaN as soon as the window holds a
non-finite value (pandas' NaN propagation), else the arithmetic mean. -/
def windowMeanF (win : Column) : FVal :=
  if win.all FVal.isFin then .fin ((win.map FVal.toQ).sum / (win.length : ℚ))
  else .nan

/-- Model of `Series.rolling(w).mean()`: position `i` holds NaN for `i + 1 < w`
(incomplete window, `min_periods` defaults to the window size — no
backfill, no partial window) and otherwise the mean of the trailing `w`
values at positions `i - w + 1 .. i`. -/
def rollingMeanF (w : ℕ) (vs : Column) : Column :=
  (List.range vs.length).map (fun i =>
    if i + 1 < w then .nan else windowMeanF ((vs.drop (i + 1 - w)).take w))

/-- Claim C2: for every series, price field and positive window `w`, the
moving average at position `i ≥ w−1` is the arithmetic mean of the field
over positions `i−w+1 .. i`, and at every position `i < w−1` it is NaN
("not available"). -/
theorem c2_rolling_mean (xs : List ℚ) (w i : ℕ) (hw : 0 < w)
    (hi : i < xs.length) :
    (i + 1 < w → (rollingMeanF w (toColumn xs)).get? i = some .nan) ∧
    (w ≤ i + 1 → ∃ win : List ℚ,
       win.length = w ∧
       (∀ j, j < w → win.get? j = xs.get? (i + 1 - w + j)) ∧
       (rollingMeanF w (toColumn xs)).get? i
         = some (.fin (win.sum / (win.length : ℚ)))) := by
  have hlen : (toColumn xs).length = xs.length := List.length_map _ _
  have hget : (rollingMeanF w (toColumn xs)).get? i
      = some (if i + 1 < w then .nan
              else windowMeanF (((toColumn xs).drop (i + 1 - w)).take w)) := by
    unfold rollingMeanF
    rw [List.get?_map, List.get?_range (by rw [hlen]; exact hi)]
    rfl
  constructor
  · intro hlt
    rw [hget, if_pos hlt]
  · intro hge
    refine ⟨(xs.drop (i + 1 - w)).take w, ?_, ?_, ?_⟩
    · rw [List.length_take, List.length_drop]
      omega
    · intro j hj
      rw [List.get?_take hj, List.get?_drop]
    · rw [hget, if_neg (by omega)]
      have hcomm : ((toColumn xs).drop (i + 1 - w)).take w
          = toColumn ((xs.drop (i + 1 - w)).take w) := by
        unfold toColumn
        rw [List.map_take, List.map_drop]
      rw [hcomm]
      unfold windowMeanF
      have hall : (toColumn ((xs.drop (i + 1 - w)).take w)).all FVal.isFin = true := by
        rw [List.all_eq_true]
        intro v hv
        rcases List.mem_map.mp hv with ⟨q, _, rfl⟩
        rfl
      rw [if_pos hall]
      unfold toColumn
      rw [List.map_map, List.length_map]
      have hid : (FVal.toQ ∘ FVal.fin) = id := rfl
      rw [hid, List.map_id]

/-- Claim C2 witness: window 2 on the 3-bar series `[1, 2, 3]` — position
0 is an incomplete window, hence NaN. -/
theorem c2_witness :
    (rollingMeanF 2 (toColumn [(1 : ℚ), 2, 3])).get? 0 = some .nan :=
  (c2_rolling_mean [(1 : ℚ), 2, 3] 2 0 (by decide) (by decide)).1 (by decide)

/-! Pipeline model: fetch, guards, dataframe augmentation and the page
outcome of one Streamlit script run (app.py lines 36-163). -/

/-- The provider's raw result (`yf.download`): a date index plus named
numeric columns. -/
structure RawDf where
  index : List ℚ
  cols : List (String × List ℚ)
deriving DecidableEq

/-- Well-formedness of a provider frame: every column has one entry per
index row (always true of a real dataframe). -/
def RawDf.wf (d : RawDf) : Prop :=
  ∀ c ∈ d.cols, c.snd.length = d.index.length

/-- An in-memory dataframe after `reset_index`: named float columns. -/
abbrev Df := List (String × Column)

/-- Model of `data.rename_axis("Date").reset_index()` (app.py line 42): the index
becomes a leading "Date" column. -/
def resetIndex (d : RawDf) : Df :=
  ("Date", toColumn d.index) :: d.cols.map (fun c => (c.fst, toColumn c.snd))

/-- Model of `load_price_data` (app.py lines 36-45): `None` when the provider
raises any error or returns an empty frame (`data.empty`, i.e. no rows),
else the reset-index dataframe. An invalid symbol surfaces at this
boundary as an empty result or an error. -/
def load_price_data : Except Unit RawDf → Option Df
  | .error _ => none
  | .ok d => if d.index.isEmpty then none else some (resetIndex d)

/-- Column lookup `data[name]`; `none` models a raised `KeyError`. -/
def getCol : Df → String → Option Column
  | [], _ => none
  | c :: cs, n => if c.fst = n then some c.snd else getCol cs n

/-- Column assignment `data[name] = col`: replaces an existing column in
place, else appends a new column on the right. -/
def setCol : Df → String → Column → Df
  | [], n, col => [(n, col)]
  | c :: cs, n, col =>
    if c.fst = n then (n, col) :: cs else c :: setCol cs n col

/-- Model of `data.columns`, in order. -/
def colNames (df : Df) : List String := df.map Prod.fst

/-- The moving-average column name, `f"MA {w}"`. -/
def maName (w : ℕ) : String := "MA " ++ toString w

/-- Model of a `pct_change` step on float cells; non-finite operands propagate NaN
(unreachable for provider data, whose cells are finite). -/
def pctChangeStepF : FVal → FVal → FVal
  | .fin a, .fin b => pctChangeStep a b
  | _, _ => .nan

/-- Model of `pct_change` on a float column (app.py line 66). -/
def pctChangeF : Column → Column
  | [] => []
  | v :: vs => .nan :: List.zipWith pctChangeStepF (v :: vs) vs

/-- Outcome of one run of the Streamlit script. -/
inductive PageResult where
  | stopNoTicker
  | stopNoData
  | stopMissingAdjClose
  | errorAfterKpis
  | rendered (table : Df)
deriving DecidableEq

/-- The MA computations of app.py lines 107-108: look up the price
column (a missing column raises `KeyError`), assign `MA {short}` from its
rolling mean, look the price column up again on the updated frame, and
assign `MA {long}`; `none` models the uncaught `KeyError`. -/
def addMAs (df : Df) (priceColumn : String) (maShort maLong : ℕ) : Option Df :=
  match getCol df priceColumn with
  | none => none
  | some pcol =>
    let df2 := setCol df (maName maShort) (rollingMeanF maShort pcol)
    match getCol df2 priceColumn with
    | none => none
    | some pcol2 => some (setCol df2 (maName maLong) (rollingMeanF maLong pcol2))

/-- The script (app.py lines 50-163): stop on an empty ticker; stop with
a static message when the fetch returns `None`; stop with a static
message when "Adj Close" is absent (the only guarded column — the guard
`"Adj Close" not in data.columns` is modelled by the lookup failing);
append the "Return" column; render the KPI cards; compute the MA columns,
where a missing price column raises the uncaught `KeyError`; then render
charts, table and CSV export of the augmented frame. -/
def runPipeline (ticker : String) (resp : Except Unit RawDf)
    (priceColumn : String) (maShort maLong : ℕ) : PageResult :=
  if ticker = "" then .stopNoTicker
  else
    match load_price_data resp with
    | none => .stopNoData
    | some df =>
      match getCol df "Adj Close" with
      | none => .stopMissingAdjClose
      | some adj =>
        match addMAs (setCol df "Return" (pctChangeF adj)) priceColumn maShort maLong with
        | none => .errorAfterKpis
        | some df2 => .rendered df2

/-- Whether a run ends in `st.stop()` right after a static
`st.error`/`st.info` message, with nothing else on the page. -/
def haltsWithStaticMessage : PageResult → Bool
  | .stopNoTicker => true
  | .stopNoData => true
  | .stopMissingAdjClose => true
  | _ => false

/-- Whether the KPI cards are rendered during a run. -/
def showsKpis : PageResult → Bool
  | .errorAfterKpis => true
  | .rendered _ => true
  | _ => false

/-- Whether the charts, data table and CSV export are rendered. -/
def showsChartsAndTable : PageResult → Bool
  | .rendered _ => true
  | _ => false

/-! Dataframe column lemmas. -/

lemma colNames_setCol (df : Df) (n : String) (col : Column) :
    colNames (setCol df n col)
      = if n ∈ colNames df then colNames df else colNames df ++ [n] := by
  induction df with
  | nil => simp [setCol, colNames]
  | cons c cs ih =>
    by_cases hc : c.fst = n
    · have hmem : n ∈ colNames (c :: cs) := by
        rw [show colNames (c :: cs) = c.fst :: colNames cs from rfl, hc]
        exact List.mem_cons_self _ _
      rw [if_pos hmem]
      simp [setCol, hc, colNames]
    · have hc' : ¬ n = c.fst := fun e => hc e.symm
      have hset : setCol (c :: cs) n col = c :: setCol cs n col := by
        simp [setCol, hc]
      have hcol : colNames (c :: cs) = c.fst :: colNames cs := rfl
      by_cases hmem : n ∈ colNames cs
      · rw [hcol, if_pos (List.mem_cons_of_mem _ hmem), hset,
          show colNames (c :: setCol cs n col)
            = c.fst :: colNames (setCol cs n col) from rfl,
          ih, if_pos hmem]
      · rw [hcol, if_neg (by simp [hc', hmem]), hset,
          show colNames (c :: setCol cs n col)
            = c.fst :: colNames (setCol cs n col) from rfl,
          ih, if_neg hmem]
        rfl

lemma getCol_setCol_self (df : Df) (n : String) (col : Column) :
    getCol (setCol df n col) n = some col := by
  induction df with
  | nil => simp [setCol, getCol]
  | cons c cs ih =>
    by_cases hc : c.fst = n
    · simp [setCol, hc, getCol]
    · simp [setCol, hc, getCol, ih]

lemma getCol_setCol_ne (df : Df) (n m : String) (col : Column) (h : m ≠ n) :
    getCol (setCol df n col) m = getCol df m := by
  have h' : ¬ n = m := fun e => h e.symm
  induction df with
  | nil =>
    simp only [setCol, getCol]
    rw [if_neg h']
  | cons c cs ih =>
    by_cases hc : c.fst = n
    · have hset : setCol (c :: cs) n col = (n, col) :: cs := by
        simp [setCol, hc]
      have hcm : ¬ c.fst = m := by rw [hc]; exact fun e => h e.symm
      rw [hset]
      simp only [getCol]
      rw [if_neg h', if_neg hcm]
    · have hset : setCol (c :: cs) n col = c :: setCol cs n col := by
        simp [setCol, hc]
      rw [hset]
      simp only [getCol, ih]

lemma getCol_isSome_iff (df : Df) (n : String) :
    (getCol df n).isSome = true ↔ n ∈ colNames df := by
  induction df with
  | nil => simp [getCol, colNames]
  | cons c cs ih =>
    by_cases hc : c.fst = n
    · simp [getCol, hc, colNames]
    · have hc' : ¬ n = c.fst := fun e => hc e.symm
      simp [getCol, hc, hc', colNames, ih]

/-- Claim C4: the fetch returns the `None` sentinel exactly when the
provider errors or returns no rows (an invalid symbol surfaces as one of
those two at the provider boundary); in that case the run halts with a
static error message and renders no KPI cards, charts or table. -/
theorem c4_nodata (ticker : String) (resp : Except Unit RawDf)
    (pc : String) (ms ml : ℕ) (ht : ticker ≠ "") :
    (load_price_data resp = none
       ↔ resp = .error () ∨ ∃ d, resp = .ok d ∧ d.index = []) ∧
    (runPipeline ticker resp pc ms ml = .stopNoData
       ↔ load_price_data resp = none) ∧
    haltsWithStaticMessage .stopNoData = true ∧
    showsKpis .stopNoData = false ∧
    showsChartsAndTable .stopNoData = false := by
  refine ⟨?_, ?_, rfl, rfl, rfl⟩
  · cases resp with
    | error e =>
      cases e
      simp [load_price_data]
    | ok d =>
      simp only [load_price_data]
      by_cases he : d.index.isEmpty = true
      · have : d.index = [] := by
          cases hnil : d.index with
          | nil => rfl
          | cons a t => rw [hnil] at he; simp [List.isEmpty] at he
        simp [he, this]
      · have : d.index ≠ [] := by
          intro hnil; rw [hnil] at he; simp [List.isEmpty] at he
        simp [he, this]
  · unfold runPipeline
    rw [if_neg ht]
    cases hload : load_price_data resp with
    | none => simp
    | some df =>
      simp only
      cases getCol df "Adj Close" with
      | none => simp
      | some adj =>
        simp only
        cases addMAs (setCol df "Return" (pctChangeF adj)) pc ms ml with
        | none => simp
        | some df2 => simp

/-- Claim C4 witness: a provider error. -/
theorem c4_witness :
    (load_price_data (.error ()) = none
       ↔ (Except.error () : Except Unit RawDf) = .error ()
           ∨ ∃ d, (Except.error () : Except Unit RawDf) = .ok d ∧ d.index = []) ∧
    (runPipeline "AAPL" (.error ()) "Adj Close" 20 50 = .stopNoData
       ↔ load_price_data (.error ()) = none) ∧
    haltsWithStaticMessage .stopNoData = true ∧
    showsKpis .stopNoData = false ∧
    showsChartsAndTable .stopNoData = false :=
  c4_nodata "AAPL" (.error ()) "Adj Close" 20 50 (by decide)

/-- Claim C5 counterexample: with a fetched frame that has "Adj Close"
and "Open" but no "Close" column, selecting "Close" as the price field
does NOT halt with a static message — the run reaches the moving-average
computation after the KPI cards are rendered and dies with an uncaught
`KeyError` instead. -/
theorem c5_counterexample :
    "Close" ∉ colNames (resetIndex ⟨[1, 2], [("Adj Close", [1, 2]), ("Open", [1, 2])]⟩) ∧
    runPipeline "AAPL" (.ok ⟨[1, 2], [("Adj Close", [1, 2]), ("Open", [1, 2])]⟩)
      "Close" 20 50 = .errorAfterKpis ∧
    haltsWithStaticMessage
      (runPipeline "AAPL" (.ok ⟨[1, 2], [("Adj Close", [1, 2]), ("Open", [1, 2])]⟩)
        "Close" 20 50) = false ∧
    showsKpis
      (runPipeline "AAPL" (.ok ⟨[1, 2], [("Adj Close", [1, 2]), ("Open", [1, 2])]⟩)
        "Close" 20 50) = true := by
  refine ⟨by decide, ?_, ?_, ?_⟩ <;> decide

/-- Claim C5 (amended): only the "Adj Close" column is guarded — after a
successful fetch the run halts with a static message iff "Adj Close" is
absent; when "Adj Close" is present but the selected price column is
missing, the run instead ends in the uncaught `KeyError` after the KPI
cards. -/
theorem c5_missing_column (ticker : String) (resp : Except Unit RawDf)
    (pc : String) (ms ml : ℕ) (df : Df) (ht : ticker ≠ "")
    (hload : load_price_data resp = some df) :
    (runPipeline ticker resp pc ms ml = .stopMissingAdjClose
       ↔ getCol df "Adj Close" = none) ∧
    (∀ adj, getCol df "Adj Close" = some adj →
       getCol (setCol df "Return" (pctChangeF adj)) pc = none →
       runPipeline ticker resp pc ms ml = .errorAfterKpis) := by
  unfold runPipeline
  rw [if_neg ht]
  simp only [hload]
  constructor
  · cases hadj : getCol df "Adj Close" with
    | none => simp
    | some adj =>
      simp only
      cases hma : addMAs (setCol df "Return" (pctChangeF adj)) pc ms ml with
      | none => simp
      | some df2 => simp
  · intro adj hadj hkey
    simp only [hadj]
    have hma : addMAs (setCol df "Return" (pctChangeF adj)) pc ms ml = none := by
      unfold addMAs
      simp only [hkey]
    simp only [hma]

/-- Claim C5 witness: a frame where "Adj Close" is present, so the static
missing-column stop does not fire. -/
theorem c5_witness :
    runPipeline "AAPL" (.ok ⟨[(1 : ℚ), 2], [("Adj Close", [1, 2]), ("Open", [1, 2])]⟩)
        "Adj Close" 20 50 = .stopMissingAdjClose
      ↔ getCol (resetIndex ⟨[(1 : ℚ), 2], [("Adj Close", [1, 2]), ("Open", [1, 2])]⟩)
          "Adj Close" = none :=
  (c5_missing_column "AAPL" (.ok ⟨[(1 : ℚ), 2], [("Adj Close", [1, 2]), ("Open", [1, 2])]⟩)
    "Adj Close" 20 50
    (resetIndex ⟨[(1 : ℚ), 2], [("Adj Close", [1, 2]), ("Open", [1, 2])]⟩)
    (by decide) (by decide)).1

/-- Model of `series.iloc[-1]` (app.py line 69). -/
def ilocLast (vs : Column) : Option FVal := vs.get? (vs.length - 1)

/-- Model of `series.iloc[-2]` (app.py line 70). -/
def ilocPrev (vs : Column) : Option FVal := vs.get? (vs.length - 2)

/-- Claim C7: a successful fetch yields a non-empty frame (the `data.empty`
guard in `load_price_data`), so on every column the summary's `iloc[-1]`
access — and, under the `len(data) > 1` guard, the `iloc[-2]` access —
is in bounds: the out-of-range indexing branch is unreachable. -/
theorem c7_success_nonempty (d : RawDf) (df : Df) (hwf : d.wf)
    (hload : load_price_data (.ok d) = some df) :
    ∀ c ∈ df, 0 < c.snd.length ∧ (ilocLast c.snd).isSome = true ∧
      (1 < c.snd.length → (ilocPrev c.snd).isSome = true) := by
  simp only [load_price_data] at hload
  by_cases he : d.index.isEmpty = true
  · rw [if_pos he] at hload
    exact absurd hload (by simp)
  · rw [if_neg he] at hload
    have hdf : df = resetIndex d := by
      injection hload with h
      exact h.symm
    subst hdf
    have hpos : 0 < d.index.length := by
      cases hnil : d.index with
      | nil => rw [hnil] at he; simp [List.isEmpty] at he
      | cons a t => simp [hnil]
    intro c hc
    have hlen : c.snd.length = d.index.length := by
      rcases List.mem_cons.mp hc with h | h
      · rw [h]
        exact List.length_map _ _
      · rcases List.mem_map.mp h with ⟨c', hc', rfl⟩
        show (toColumn c'.snd).length = _
        rw [toColumn, List.length_map]
        exact hwf c' hc'
    have h1 : 0 < c.snd.length := hlen ▸ hpos
    refine ⟨h1, ?_, ?_⟩
    · unfold ilocLast
      rw [List.get?_eq_get (show c.snd.length - 1 < c.snd.length by omega)]
      rfl
    · intro h2
      unfold ilocPrev
      rw [List.get?_eq_get (show c.snd.length - 2 < c.snd.length by omega)]
      rfl

/-- Claim C7 witness: a 2-row fetched frame; the last-bar access on its
"Adj Close" column is in bounds. -/
theorem c7_witness : (ilocLast (toColumn [(1 : ℚ), 2])).isSome = true :=
  (c7_success_nonempty ⟨[(1 : ℚ), 2], [("Adj Close", [1, 2])]⟩
    (resetIndex ⟨[(1 : ℚ), 2], [("Adj Close", [1, 2])]⟩)
    (by intro c hc; rcases List.mem_singleton.mp hc with rfl; rfl) (by decide)
    ("Adj Close", toColumn [(1 : ℚ), 2]) (by decide)).2.1

/-- Claim C9: 50 is the one window value allowed by both MA controls
(short ∈ [5,50], long ∈ [50,200]); with short = long = 50 the two rolling
computations write to the same column name "MA 50", the second assignment
overwrites the first, and the augmented table (hence the CSV export)
carries exactly one moving-average column rather than two. -/
theorem c9_single_ma_column :
    (∀ w : ℕ, ((5 ≤ w ∧ w ≤ 50) ∧ (50 ≤ w ∧ w ≤ 200)) ↔ w = 50) ∧
    ∀ (df : Df) (pc : String) (pcol : Column),
      getCol df pc = some pcol →
      maName 50 ∉ colNames df →
      pc ≠ maName 50 →
      (addMAs df pc 50 50).isSome = true ∧
      ∀ t, addMAs df pc 50 50 = some t →
        colNames t = colNames df ++ [maName 50] ∧
        List.count (maName 50) (colNames t) = 1 ∧
        getCol t (maName 50) = some (rollingMeanF 50 pcol) := by
  constructor
  · intro w
    omega
  · intro df pc pcol hget hnm hne
    have h2 : getCol (setCol df (maName 50) (rollingMeanF 50 pcol)) pc = some pcol := by
      rw [getCol_setCol_ne _ _ _ _ hne]
      exact hget
    have hma : addMAs df pc 50 50
        = some (setCol (setCol df (maName 50) (rollingMeanF 50 pcol))
            (maName 50) (rollingMeanF 50 pcol)) := by
      unfold addMAs
      simp only [hget, h2]
    refine ⟨by rw [hma]; rfl, ?_⟩
    intro t ht
    rw [hma] at ht
    injection ht with ht
    subst ht
    have hnames2 : colNames (setCol df (maName 50) (rollingMeanF 50 pcol))
        = colNames df ++ [maName 50] := by
      rw [colNames_setCol, if_neg hnm]
    have hmem2 : maName 50 ∈ colNames (setCol df (maName 50) (rollingMeanF 50 pcol)) := by
      rw [hnames2]
      simp
    refine ⟨?_, ?_, ?_⟩
    · rw [colNames_setCol, if_pos hmem2, hnames2]
    · rw [colNames_setCol, if_pos hmem2, hnames2, List.count_append,
        List.count_eq_zero.mpr hnm]
      simp
    · exact getCol_setCol_self _ _ _

/-- Claim C9 witness: a one-column frame with "Adj Close" as price field. -/
theorem c9_witness :
    (addMAs [("Adj Close", toColumn [(1 : ℚ), 2])] "Adj Close" 50 50).isSome = true :=
  (c9_single_ma_column.2 [("Adj Close", toColumn [(1 : ℚ), 2])] "Adj Close"
    (toColumn [(1 : ℚ), 2]) (by decide) (by decide) (by decide)).1

/-! CSV export and re-parse (app.py lines 157-163):
`data.to_csv(index=False)` writes a header line with the column names in
table order followed by one line per row, fields comma-separated, every
line newline-terminated (no index column). Re-parsing splits lines —
skipping blank lines, as `pd.read_csv` does, which also disposes of the
trailing newline — then splits fields. Cells are modelled as
already-rendered character strings; rendered numeric cells never contain
a comma or a newline, which the round-trip theorem takes as hypotheses. -/

/-- Split a character list at every occurrence of a separator. -/
def splitChar (c : Char) : List Char → List (List Char)
  | [] => [[]]
  | x :: xs =>
    match splitChar c xs with
    | [] => [[x]]
    | p :: ps => if x = c then [] :: p :: ps else (x :: p) :: ps

/-- Join parts with a separator character. -/
def joinChar (c : Char) : List (List Char) → List Char
  | [] => []
  | [p] => p
  | p :: ps => p ++ c :: joinChar c ps

lemma splitChar_ne_nil (c : Char) (s : List Char) : splitChar c s ≠ [] := by
  induction s with
  | nil => simp [splitChar]
  | cons x xs ih =>
    simp only [splitChar]
    cases h : splitChar c xs with
    | nil => simp
    | cons p ps => by_cases hx : x = c <;> simp [hx]

lemma splitChar_of_not_mem {c : Char} {p : List Char} (h : c ∉ p) :
    splitChar c p = [p] := by
  induction p with
  | nil => rfl
  | cons x xs ih =>
    have hx : ¬ x = c := fun e => h (by rw [← e]; exact List.mem_cons_self _ _)
    have h' : c ∉ xs := fun hm => h (List.mem_cons_of_mem _ hm)
    simp only [splitChar, ih h']
    rw [if_neg hx]

lemma splitChar_append_sep {c : Char} {p : List Char} (h : c ∉ p)
    (rest : List Char) : splitChar c (p ++ c :: rest) = p :: splitChar c rest := by
  induction p with
  | nil =>
    simp only [List.nil_append, splitChar]
    cases hs : splitChar c rest with
    | nil => exact absurd hs (splitChar_ne_nil c rest)
    | cons q qs => simp
  | cons x xs ih =>
    have hx : ¬ x = c := fun e => h (by rw [← e]; exact List.mem_cons_self _ _)
    have h' : c ∉ xs := fun hm => h (List.mem_cons_of_mem _ hm)
    rw [List.cons_append]
    simp only [splitChar, List.append_eq, ih h']
    rw [if_neg hx]

lemma splitChar_joinChar {c : Char} :
    ∀ {parts : List (List Char)}, parts ≠ [] → (∀ p ∈ parts, c ∉ p) →
      splitChar c (joinChar c parts) = parts := by
  intro parts
  induction parts with
  | nil => intro h _; exact absurd rfl h
  | cons p ps ih =>
    intro _ hall
    cases ps with
    | nil => exact splitChar_of_not_mem (hall p (List.mem_cons_self _ _))
    | cons q qs =>
      rw [show joinChar c (p :: q :: qs) = p ++ c :: joinChar c (q :: qs) from rfl,
        splitChar_append_sep (hall p (List.mem_cons_self _ _)),
        ih (by simp) (fun r hr => hall r (List.mem_cons_of_mem _ hr))]

lemma splitChar_append_last (c : Char) (s : List Char) :
    splitChar c (s ++ [c]) = splitChar c s ++ [[]] := by
  induction s with
  | nil =>
    simp [splitChar]
  | cons x xs ih =>
    rw [List.cons_append]
    simp only [splitChar, List.append_eq, ih]
    cases h : splitChar c xs with
    | nil => exact absurd h (splitChar_ne_nil c xs)
    | cons p ps =>
      simp only [h, List.cons_append]
      by_cases hx : x = c
      · simp [hx]
      · simp [hx]

lemma mem_joinChar {c x : Char} :
    ∀ {parts : List (List Char)}, x ∈ joinChar c parts →
      x = c ∨ ∃ p ∈ parts, x ∈ p := by
  intro parts
  induction parts with
  | nil => intro h; simp [joinChar] at h
  | cons p ps ih =>
    intro h
    cases ps with
    | nil => exact Or.inr ⟨p, List.mem_cons_self _ _, h⟩
    | cons q qs =>
      rw [show joinChar c (p :: q :: qs) = p ++ c :: joinChar c (q :: qs) from rfl] at h
      rcases List.mem_append.mp h with h | h
      · exact Or.inr ⟨p, List.mem_cons_self _ _, h⟩
      · rcases List.mem_cons.mp h with h | h
        · exact Or.inl h
        · rcases ih h with h | ⟨r, hr, hx⟩
          · exact Or.inl h
          · exact Or.inr ⟨r, List.mem_cons_of_mem _ hr, hx⟩

lemma joinChar_ne_nil_of_two {c : Char} {parts : List (List Char)}
    (h : 2 ≤ parts.length) : joinChar c parts ≠ [] := by
  cases parts with
  | nil => simp at h
  | cons p ps =>
    cases ps with
    | nil => simp at h
    | cons q qs =>
      rw [show joinChar c (p :: q :: qs) = p ++ c :: joinChar c (q :: qs) from rfl]
      intro he
      simp [List.append_eq_nil] at he

/-- The augmented table as it reaches the export: column names plus rows
of rendered cells. -/
structure CsvTable where
  cols : List (List Char)
  rows : List (List (List Char))
deriving DecidableEq

/-- Model of `data.to_csv(index=False)`: header line then one line per row, comma
separated, every line newline-terminated. -/
def toCsv (t : CsvTable) : List Char :=
  joinChar '\n' (joinChar ',' t.cols :: t.rows.map (joinChar ',')) ++ ['\n']

/-- Re-parsing the exported CSV: split into lines, skip blank lines, take
the first line as the header and the rest as rows of comma-split cells. -/
def parseCsv (s : List Char) : CsvTable :=
  match (splitChar '\n' s).filter (fun l => !l.isEmpty) with
  | [] => ⟨[], []⟩
  | h :: rest => ⟨splitChar ',' h, rest.map (splitChar ',')⟩

/-- Claim C8: exporting the augmented table to CSV with the index excluded
and re-parsing yields the same column list in the same header order and
the same rows (hence the same row count), provided no rendered cell or
column name contains a comma or newline (true of the table's date, OHLCV,
return and moving-average columns) and the table has at least two columns
with rectangular rows. -/
theorem c8_csv_roundtrip (t : CsvTable)
    (hcols : ∀ p ∈ t.cols, ',' ∉ p ∧ '\n' ∉ p)
    (hcells : ∀ r ∈ t.rows, ∀ p ∈ r, ',' ∉ p ∧ '\n' ∉ p)
    (h2 : 2 ≤ t.cols.length)
    (hrect : ∀ r ∈ t.rows, r.length = t.cols.length) :
    (parseCsv (toCsv t)).cols = t.cols ∧ (parseCsv (toCsv t)).rows = t.rows := by
  have hline_nosep : ∀ l ∈ joinChar ',' t.cols :: t.rows.map (joinChar ','),
      '\n' ∉ l := by
    intro l hl
    rcases List.mem_cons.mp hl with rfl | hl
    · intro hx
      rcases mem_joinChar hx with h | ⟨p, hp, hx⟩
      · exact absurd h (by decide)
      · exact (hcols p hp).2 hx
    · rcases List.mem_map.mp hl with ⟨r, hr, rfl⟩
      intro hx
      rcases mem_joinChar hx with h | ⟨p, hp, hx⟩
      · exact absurd h (by decide)
      · exact (hcells r hr p hp).2 hx
  have hsplit : splitChar '\n' (toCsv t)
      = (joinChar ',' t.cols :: t.rows.map (joinChar ',')) ++ [[]] := by
    unfold toCsv
    rw [splitChar_append_last, splitChar_joinChar (by simp) hline_nosep]
  have hnonempty : ∀ l ∈ joinChar ',' t.cols :: t.rows.map (joinChar ','),
      (!l.isEmpty) = true := by
    intro l hl
    have hne : l ≠ [] := by
      rcases List.mem_cons.mp hl with rfl | hl
      · exact joinChar_ne_nil_of_two h2
      · rcases List.mem_map.mp hl with ⟨r, hr, rfl⟩
        exact joinChar_ne_nil_of_two (by rw [hrect r hr]; exact h2)
    cases l with
    | nil => exact absurd rfl hne
    | cons a as => rfl
  have hfilter : (splitChar '\n' (toCsv t)).filter (fun l => !l.isEmpty)
      = joinChar ',' t.cols :: t.rows.map (joinChar ',') := by
    rw [hsplit, List.filter_append, List.filter_eq_self.mpr hnonempty]
    simp [List.filter, List.isEmpty]
  have hcolsplit : splitChar ',' (joinChar ',' t.cols) = t.cols :=
    splitChar_joinChar (by intro h; rw [h] at h2; simp at h2)
      (fun p hp => (hcols p hp).1)
  have hrowsplit : ∀ r ∈ t.rows, splitChar ',' (joinChar ',' r) = r := by
    intro r hr
    refine splitChar_joinChar ?_ (fun p hp => (hcells r hr p hp).1)
    intro h
    have hlen := hrect r hr
    rw [h] at hlen
    simp at hlen
    omega
  have hmaps : ∀ rows : List (List (List Char)),
      (∀ r ∈ rows, splitChar ',' (joinChar ',' r) = r) →
      List.map (splitChar ',') (List.map (joinChar ',') rows) = rows := by
    intro rows
    induction rows with
    | nil => intro _; rfl
    | cons r rs ih =>
      intro h
      simp only [List.map_cons]
      rw [h r (List.mem_cons_self _ _),
        ih (fun x hx => h x (List.mem_cons_of_mem _ hx))]
  unfold parseCsv
  rw [hfilter]
  exact ⟨hcolsplit, hmaps t.rows hrowsplit⟩

/-- Claim C8 witness: a five-column augmented table (date, price columns,
return, one MA column) with one data row. -/
theorem c8_witness :
    (parseCsv (toCsv ⟨[['D', 'a', 't', 'e'], ['O', 'p', 'e', 'n'],
        ['C', 'l', 'o', 's', 'e'], ['R', 'e', 't', 'u', 'r', 'n'],
        ['M', 'A', ' ', '5', '0']],
      [[['1'], ['2'], ['3'], ['4'], ['5']]]⟩)).cols
      = [['D', 'a', 't', 'e'], ['O', 'p', 'e', 'n'], ['C', 'l', 'o', 's', 'e'],
        ['R', 'e', 't', 'u', 'r', 'n'], ['M', 'A', ' ', '5', '0']] ∧
    (parseCsv (toCsv ⟨[['D', 'a', 't', 'e'], ['O', 'p', 'e', 'n'],
        ['C', 'l', 'o', 's', 'e'], ['R', 'e', 't', 'u', 'r', 'n'],
        ['M', 'A', ' ', '5', '0']],
      [[['1'], ['2'], ['3'], ['4'], ['5']]]⟩)).rows
      = [[['1'], ['2'], ['3'], ['4'], ['5']]] :=
  c8_csv_roundtrip _ (by decide) (by decide) (by decide) (by decide)

end StockDash
